import Mathlib

/-!
# packerbin: the embedded packer binary and its generator

A shallow embedding of `packerbin.go` (the run-time accessors `Sha1`, `Sha256`,
`newReader`, `WriteFile`, `Bytes`) and of `generate/generate.go` (`EncodeBinary` and the
part of `main` that lays the payload out as the `packerBinary` literal).

Go byte slices and strings are lists of bytes.  Go `error` values are `Option Err`
(`none` is `nil`); `io.EOF` is one of the error values, as in Go.  A `panic(err)` is the
`Except.error err` result of a function that otherwise returns `Except.ok`.

The standard-library pieces the code composes are modelled next to the code that calls
them: `encoding/hex` and `encoding/base64` concretely, `io.Reader`, `io.Copy`, `os` through
small state models, and `compress/gzip`, `crypto/sha1`, `crypto/sha256` as the fields of a
`Lib` value every definition takes as a parameter.
-/

namespace Packerbin

/-! ## Bytes and errors -/

/-- A Go `byte`. -/
abbrev Byte := Fin 256

/-- Conversion `byte(n)` of an unsigned integer: the low eight bits. -/
def toByte (n : Nat) : Byte := ⟨n % 256, Nat.mod_lt _ (by decide)⟩

/-- The bytes of an ASCII string constant. -/
def bytesOf (s : String) : List Byte := s.toList.map (fun c => toByte c.toNat)

/-- Go error values that occur in the package, identified by kind. -/
inductive Err where
  /-- The error `io.EOF`. -/
  | EOF
  /-- The error `io.ErrUnexpectedEOF`. -/
  | ErrUnexpectedEOF
  /-- The error `hex.ErrLength`: odd length hex string. -/
  | ErrLength
  /-- The error `hex.InvalidByteError(b)`. -/
  | InvalidByteError (b : Byte)
  /-- The error `base64.CorruptInputError`. -/
  | CorruptInputError
  /-- The error of `os.OpenFile` with `O_EXCL` on an existing path. -/
  | ErrExist
  /-- The error of `os.Remove` on a path that does not exist. -/
  | ErrNotExist
  /-- Any other error (of the gzip reader, of the file system), by number. -/
  | other (code : Nat)
  deriving DecidableEq, Repr

/-! ## encoding/hex -/

/-- The constant `hextable` of `encoding/hex`. -/
def hextable : List Byte := bytesOf "0123456789abcdef"

/-- The value of a hexadecimal digit, `none` for any other byte
(`reverseHexTable` holds `0xff` there). -/
def fromHexChar (c : Byte) : Option Nat :=
  if 48 ≤ c.val ∧ c.val ≤ 57 then some (c.val - 48)
  else if 97 ≤ c.val ∧ c.val ≤ 102 then some (c.val - 97 + 10)
  else if 65 ≤ c.val ∧ c.val ≤ 70 then some (c.val - 65 + 10)
  else none

/-- The function `hex.EncodeToString`: two lower-case digits per byte. -/
def hexEncodeToString : List Byte → List Byte
  | [] => []
  | v :: rest =>
    hextable.getD (v.val / 16) 0 :: hextable.getD (v.val % 16) 0 :: hexEncodeToString rest

/-- The function `hex.DecodeString`: the bytes decoded before the first problem, and the
error (`InvalidByteError` for a byte that is no hex digit, `ErrLength` for an odd length). -/
def hexDecodeString : List Byte → List Byte × Option Err
  | p :: q :: rest =>
    match fromHexChar p with
    | none => ([], some (Err.InvalidByteError p))
    | some a =>
      match fromHexChar q with
      | none => ([], some (Err.InvalidByteError q))
      | some b =>
        let r := hexDecodeString rest
        (toByte (a * 16 + b) :: r.1, r.2)
  | [p] =>
    match fromHexChar p with
    | none => ([], some (Err.InvalidByteError p))
    | some _ => ([], some Err.ErrLength)
  | [] => ([], none)

/-- The builtin `copy(dst, src)`: `dst` after the call, its first `min (len dst) (len src)`
bytes replaced by those of `src`. -/
def copy (dst src : List Byte) : List Byte :=
  src.take dst.length ++ dst.drop src.length

/-! ## The generated constants -/

/-- The constants of the generated source file. -/
structure Package where
  /-- The constant `decodedLen`. -/
  decodedLen : Nat
  /-- The constant `packerFilename`. -/
  packerFilename : List Byte
  /-- The constant `packerSHA1`. -/
  packerSHA1 : List Byte
  /-- The constant `packerSHA256`. -/
  packerSHA256 : List Byte
  /-- The constant `packerBinary`. -/
  packerBinary : List Byte
  deriving DecidableEq, Repr

/-- The constant `sha1.Size`. -/
def sha1Size : Nat := 20

/-- The constant `sha256.Size`. -/
def sha256Size : Nat := 32

/-- The function `Sha1` of packerbin.go: `Except.error err` is `panic(err)`; the result
is the zeroed array `sum` after `copy(sum[0:], s)`. -/
def Sha1 (pkg : Package) : Except Err (List Byte) :=
  match hexDecodeString pkg.packerSHA1 with
  | (_, some err) => Except.error err
  | (s, none) => Except.ok (copy (List.replicate sha1Size 0) s)

/-- The function `Sha256` of packerbin.go. -/
def Sha256 (pkg : Package) : Except Err (List Byte) :=
  match hexDecodeString pkg.packerSHA256 with
  | (_, some err) => Except.error err
  | (s, none) => Except.ok (copy (List.replicate sha256Size 0) s)

/-! ## encoding/base64, `RawStdEncoding` -/

/-- The alphabet `encodeStd` of `encoding/base64`. -/
def encodeStd : List Byte :=
  bytesOf "ABCDEFGHIJKLMNOPQRSTUVWXYZabcdefghijklmnopqrstuvwxyz0123456789+/"

/-- The table lookup `enc.encode[v&0x3F]`. -/
def b64Char (v : Nat) : Byte := encodeStd.getD (v % 64) 0

/-- The table `enc.decodeMap`: the index of a byte in the alphabet, `none` (`0xff` in Go)
for a byte outside it.  `RawStdEncoding` has no padding character, so `=` is outside. -/
def decodeMap (c : Byte) : Option Nat := encodeStd.indexOf? c

/-- What the encoder made by `base64.NewEncoder(base64.RawStdEncoding, w)` has written
to `w` once it is closed, for the bytes written to it: four characters per three bytes,
and two or three characters, without padding, for a final group of one or two bytes. -/
def rawStdEncode : List Byte → List Byte
  | a :: b :: c :: rest =>
    let val := a.val * 65536 + b.val * 256 + c.val
    b64Char (val / 262144) :: b64Char (val / 4096) :: b64Char (val / 64) :: b64Char val ::
      rawStdEncode rest
  | [a, b] =>
    let val := a.val * 65536 + b.val * 256
    [b64Char (val / 262144), b64Char (val / 4096), b64Char (val / 64)]
  | [a] =>
    let val := a.val * 65536
    [b64Char (val / 262144), b64Char (val / 4096)]
  | [] => []

/-- The `newlineFilteringReader` that `base64.NewDecoder` puts in front of its input:
carriage returns and line feeds are dropped. -/
def stripNewlines (s : List Byte) : List Byte :=
  s.filter (fun c => decide (c.val ≠ 10 ∧ c.val ≠ 13))

/-- The bytes a reader made by `base64.NewDecoder(base64.RawStdEncoding, r)` delivers for
the (newline-free) characters of `r`, and how it ends: `none` for a clean end of input
(`io.EOF`), or the error met.  Groups of four characters give three bytes; a final group
of two or three characters gives one or two bytes; a character outside the alphabet or
a single left-over character is corrupt input. -/
def rawStdDecode : List Byte → List Byte × Option Err
  | c0 :: c1 :: c2 :: c3 :: rest =>
    match decodeMap c0, decodeMap c1, decodeMap c2, decodeMap c3 with
    | some v0, some v1, some v2, some v3 =>
      let val := v0 * 262144 + v1 * 4096 + v2 * 64 + v3
      let r := rawStdDecode rest
      (toByte (val / 65536) :: toByte (val / 256) :: toByte val :: r.1, r.2)
    | _, _, _, _ => ([], some Err.CorruptInputError)
  | [c0, c1, c2] =>
    match decodeMap c0, decodeMap c1, decodeMap c2 with
    | some v0, some v1, some v2 =>
      let val := v0 * 262144 + v1 * 4096 + v2 * 64
      ([toByte (val / 65536), toByte (val / 256)], none)
    | _, _, _ => ([], some Err.CorruptInputError)
  | [c0, c1] =>
    match decodeMap c0, decodeMap c1 with
    | some v0, some v1 =>
      let val := v0 * 262144 + v1 * 4096
      ([toByte (val / 65536)], none)
    | _, _ => ([], some Err.CorruptInputError)
  | [_] => ([], some Err.CorruptInputError)
  | [] => ([], none)

/-! ## io.Reader over a finite decompressed stream -/

/-- The state of a reader of decompressed data (`*gzip.Reader`): the blocks of bytes the
decompressor makes available one after the other, the condition reported once they are
all delivered (`io.EOF` for a complete stream, another error for a damaged one), and
whether that condition is returned together with the last bytes (`n > 0, err`) or by the
following call (`0, err`). -/
structure Stream where
  /-- The blocks of bytes still to deliver. -/
  chunks : List (List Byte)
  /-- The final condition. -/
  last : Err
  /-- Whether the final condition accompanies the last bytes. -/
  eager : Bool
  deriving DecidableEq, Repr

/-- All the bytes a stream still holds, in order. -/
def Stream.content (s : Stream) : List Byte := s.chunks.flatten

/-- One call `Read(p)` with `len(p) = cap` on the blocks `chunks`: the bytes stored into
`p`, the error returned, and the blocks left.  A call copies from the current block
only; with `cap = 0` and a non-empty block it returns `0, nil` and consumes nothing. -/
def readChunks (last : Err) (eager : Bool) (cap : Nat) :
    List (List Byte) → List Byte × Option Err × List (List Byte)
  | [] => ([], some last, [])
  | [] :: rest => readChunks last eager cap rest
  | (b :: c) :: rest =>
    if cap < (b :: c).length then ((b :: c).take cap, none, (b :: c).drop cap :: rest)
    else if eager = true ∧ rest = [] then (b :: c, some last, [])
    else (b :: c, none, rest)

/-- The result of one `Read` call. -/
structure ReadResult where
  /-- The bytes stored at the front of the buffer; their number is the `n` returned. -/
  data : List Byte
  /-- The error returned. -/
  err : Option Err
  /-- The reader afterwards. -/
  next : Stream

/-- The method `Read(p)` of the reader, for a buffer of `cap` bytes. -/
def Stream.read (s : Stream) (cap : Nat) : ReadResult :=
  let r := readChunks s.last s.eager cap s.chunks
  { data := r.1, err := r.2.1, next := { s with chunks := r.2.2 } }

/-! ## The library parameter -/

/-- An array `[n]byte`. -/
abbrev Digest (n : Nat) := { l : List Byte // l.length = n }

/-- The library functions the package calls and this development does not define. -/
structure Lib where
  /-- What a writer made by `gzip.NewWriterLevel(w, gzip.BestCompression)` has written to
  `w` after `Write(b)` and `Close()`. -/
  gzipCompress : List Byte → List Byte
  /-- The function `gzip.NewReader(r)` for an `r` that delivers the given bytes and then
  ends with `io.EOF` (`none`) or the given error: an error, or the reader of the
  decompressed data. -/
  gzipNewReader : List Byte → Option Err → Except Err Stream
  /-- The function `sha1.Sum`. -/
  sha1Sum : List Byte → Digest sha1Size
  /-- The function `sha256.Sum256`. -/
  sha256Sum : List Byte → Digest sha256Size

/-! ## packerbin.go: newReader and Bytes -/

/-- The function `newReader` of packerbin.go:
`gzip.NewReader(base64.NewDecoder(base64.RawStdEncoding, strings.NewReader(packerBinary)))`. -/
def newReader (lib : Lib) (pkg : Package) : Except Err Stream :=
  let d := rawStdDecode (stripNewlines pkg.packerBinary)
  lib.gzipNewReader d.1 d.2

/-- The function `NewReader` of packerbin.go. -/
def NewReader (lib : Lib) (pkg : Package) : Except Err Stream :=
  newReader lib pkg

/-- The `for` loop of `Bytes`, on the buffer `p` and the count `n`, for at most `fuel`
iterations: `none` when the iterations run out, `Except.error e` for the `return nil, e`
inside the loop, `Except.ok (p, n)` after the `break`. -/
def readLoop : Nat → Stream → List Byte → Nat → Option (Except Err (List Byte × Nat))
  | 0, _, _, _ => none
  | fuel + 1, r, p, n =>
    let res := r.read (p.length - n)
    let p1 := p.take n ++ copy (p.drop n) res.data
    let n1 := n + res.data.length
    match res.err with
    | some Err.EOF => some (Except.ok (p1, n1))
    | some e => some (Except.error e)
    | none => readLoop fuel res.next p1 n1

/-- The function `Bytes` of packerbin.go, its loop bounded by `fuel` iterations: `none`
when the loop has not ended within them, `Except.error e` for `return nil, e`,
`Except.ok p` for `return p, nil`. -/
def Bytes (lib : Lib) (pkg : Package) (fuel : Nat) : Option (Except Err (List Byte)) :=
  match newReader lib pkg with
  | Except.error err => some (Except.error err)
  | Except.ok r =>
    match readLoop fuel r (List.replicate pkg.decodedLen 0) 0 with
    | none => none
    | some (Except.error e) => some (Except.error e)
    | some (Except.ok (p, n)) =>
      if n ≠ pkg.decodedLen then some (Except.error Err.ErrUnexpectedEOF)
      else some (Except.ok p)

/-! ## os and io.Copy -/

/-- A regular file: its bytes and its permission bits. -/
structure File where
  /-- The bytes of the file. -/
  content : List Byte
  /-- The permission bits. -/
  perm : Nat
  deriving DecidableEq, Repr

/-- A file system: the files that exist, by path. -/
abbrev FS := List (String × File)

/-- The process and file system around a call: the file mode creation mask of the
process, an error for creating a path (a missing or read-only directory), the number of
bytes the destination takes before a write fails with `writeErr` (`none`: any number),
the error of closing the destination, and an error for removing a path (a directory
that does not allow it, a file system that has become read-only). -/
structure FileEnv where
  /-- The file mode creation mask (umask) of the process. -/
  umask : Nat
  /-- The error of creating a path that does not exist yet, if any. -/
  openErr : String → Option Err
  /-- The error of removing a path that exists, if any. -/
  removeErr : String → Option Err
  /-- The number of bytes the destination accepts. -/
  writeLimit : Option Nat
  /-- The error of the write that exceeds the limit. -/
  writeErr : Err
  /-- The error of closing the destination, if any. -/
  closeErr : Option Err

/-- The permission bits of a file created with the requested bits `perm` under the mask
`umask`: `perm &^ umask`, within the nine permission bits. -/
def applyUmask (perm umask : Nat) : Nat :=
  perm &&& (0o777 ^^^ (umask &&& 0o777))

/-- The call `os.OpenFile(name, os.O_CREATE|os.O_EXCL|os.O_WRONLY, perm)`: an error and
no change when `name` exists or cannot be created, else the file system with a new
empty file at `name`, whose permission bits are `perm` with the bits of the umask
cleared. -/
def openFile (env : FileEnv) (fs : FS) (name : String) (perm : Nat) : Except Err FS :=
  match fs.lookup name with
  | some _ => Except.error Err.ErrExist
  | none =>
    match env.openErr name with
    | some e => Except.error e
    | none => Except.ok ((name, { content := [], perm := applyUmask perm env.umask }) :: fs)

/-- The file system after `b` is appended to the file at `name`. -/
def appendFile (fs : FS) (name : String) (b : List Byte) : FS :=
  fs.map (fun e =>
    if e.1 = name then (e.1, { content := e.2.content ++ b, perm := e.2.perm }) else e)

/-- The call `f.Write(b)` on the file opened at `name`, `off` bytes into it: the number
of bytes written, the error, and the file system afterwards. -/
def fileWrite (env : FileEnv) (fs : FS) (name : String) (off : Nat) (b : List Byte) :
    Nat × Option Err × FS :=
  match env.writeLimit with
  | none => (b.length, none, appendFile fs name b)
  | some lim =>
    if off + b.length ≤ lim then (b.length, none, appendFile fs name b)
    else (lim - off, some env.writeErr, appendFile fs name (b.take (lim - off)))

/-- The file system without the file at `name`. -/
def unlink (fs : FS) (name : String) : FS :=
  fs.filter (fun e => decide (e.1 ≠ name))

/-- The call `os.Remove(name)`: the error returned and the file system afterwards.  When
the removal is refused, or there is no file at `name`, nothing changes; else the file is
gone. -/
def remove (env : FileEnv) (fs : FS) (name : String) : Option Err × FS :=
  match env.removeErr name with
  | some e => (some e, fs)
  | none =>
    match fs.lookup name with
    | none => (some Err.ErrNotExist, fs)
    | some _ => (none, unlink fs name)

/-- The call `io.Copy(f, r)` for the file `f` opened at `name` and the reader `r`, with
the buffer of 32768 bytes that `io.Copy` allocates, for at most `fuel` reads: the error
returned and the file system afterwards (the byte count is not used by the caller).  A
write error ends the copy; a read error other than `io.EOF` ends it after the bytes read
with it are written; `io.EOF` ends it with a nil error.  A write to a file is short only
together with an error, so `io.ErrShortWrite` does not occur. -/
def ioCopy (env : FileEnv) (name : String) :
    Nat → Stream → FS → Nat → Option (Option Err × FS)
  | 0, _, _, _ => none
  | fuel + 1, r, fs, off =>
    let res := r.read 32768
    let w := if res.data.length > 0 then fileWrite env fs name off res.data
             else (0, none, fs)
    match w.2.1 with
    | some ew => some (some ew, w.2.2)
    | none =>
      match res.err with
      | some Err.EOF => some (none, w.2.2)
      | some er => some (some er, w.2.2)
      | none => ioCopy env name fuel res.next w.2.2 (off + w.1)

/-- The function `WriteFile` of packerbin.go, the copy bounded by `fuel` reads: the error
returned and the file system afterwards (`none`: the copy has not ended within `fuel`
reads).  After a failed copy the error of `os.Remove(name)` is discarded, as in the
code.  The messages printed to standard output are left out. -/
def WriteFile (lib : Lib) (pkg : Package) (env : FileEnv) (fs : FS) (name : String)
    (fuel : Nat) : Option (Option Err × FS) :=
  match newReader lib pkg with
  | Except.error err => some (some err, fs)
  | Except.ok r =>
    match openFile env fs name 0o755 with
    | Except.error err => some (some err, fs)
    | Except.ok fs0 =>
      match ioCopy env name fuel r fs0 0 with
      | none => none
      | some (some err, fs1) => some (some err, (remove env fs1 name).2)
      | some (none, fs1) => some (env.closeErr, fs1)

/-! ## generate/generate.go -/

/-- The package variables `EncodeBinary` sets. -/
structure Globals where
  /-- The variable `DecodedLen`. -/
  DecodedLen : Nat
  /-- The variable `Sha256Sum`. -/
  Sha256Sum : Digest sha256Size
  /-- The variable `Sha1Sum`. -/
  Sha1Sum : Digest sha1Size

/-- The function `EncodeBinary` of generate.go, for the result `file` of
`ioutil.ReadFile(filename)`: the error returned, or the variables it sets and the bytes
it appends to `out`.  Writes into a `bytes.Buffer` do not fail, and
`gzip.BestCompression` is a valid level, so the read is the only source of an error. -/
def EncodeBinary (lib : Lib) (file : Except Err (List Byte)) :
    Except Err (Globals × List Byte) :=
  match file with
  | Except.error err => Except.error err
  | Except.ok b =>
    Except.ok
      ({ DecodedLen := b.length, Sha256Sum := lib.sha256Sum b, Sha1Sum := lib.sha1Sum b },
       rawStdEncode (lib.gzipCompress b))

/-- The loop of `main` that moves `buf` to the output 80 bytes at a time, a line feed
after each piece: one iteration per unit of `fuel`, as long as `buf.Len() > 0`. -/
def layoutLoop : Nat → List Byte → List Byte
  | 0, _ => []
  | fuel + 1, buf =>
    if buf.length > 0 then buf.take 80 ++ 10 :: layoutLoop fuel (buf.drop 80)
    else []

/-- The text between the two backticks of the `packerBinary` literal `main` writes: the
line feed that ends the `Format` constant, then the lines of the payload.  Every
iteration of the loop removes at least one byte, so `buf.length` iterations end it. -/
def literalBody (buf : List Byte) : List Byte :=
  10 :: layoutLoop buf.length buf

/-- The constants of the source file that `main` of generate.go writes, for the result
`file` of reading the binary and the value `BinaryName` of the `-name` flag (a plain file
name, which the format string copies between the quotes as it is), when the output file
can be created.  `FormatAST` reprints the file and keeps the value of every constant. -/
def main (lib : Lib) (BinaryName : List Byte) (file : Except Err (List Byte)) :
    Except Err Package :=
  match EncodeBinary lib file with
  | Except.error err => Except.error err
  | Except.ok (g, buf) =>
    Except.ok
      { decodedLen := g.DecodedLen
        packerFilename := if BinaryName = [] then bytesOf "packer" else BinaryName
        packerSHA1 := hexEncodeToString g.Sha1Sum.val
        packerSHA256 := hexEncodeToString g.Sha256Sum.val
        packerBinary := literalBody buf }

/-! ## A small instance of the library parameter -/

/-- A codec that stores the data behind the two bytes of the gzip magic number. -/
def storedCompress (b : List Byte) : List Byte := 31 :: 139 :: b

/-- The reader for `storedCompress`: an error of the input or a missing magic number is
an error, else the data is delivered in one block. -/
def storedNewReader (data : List Byte) (err : Option Err) : Except Err Stream :=
  match err with
  | some e => Except.error e
  | none =>
    match data with
    | 31 :: 139 :: b => Except.ok { chunks := [b], last := Err.EOF, eager := true }
    | _ => Except.error (Err.other 1)

/-- A checksum of `n` bytes: the data cut or zero-filled to `n` bytes. -/
def padSum (n : Nat) (b : List Byte) : Digest n :=
  ⟨b.take n ++ List.replicate (n - b.length) 0, by simp; omega⟩

/-- A library instance with the stored codec and the padding checksums. -/
def storedLib : Lib :=
  { gzipCompress := storedCompress
    gzipNewReader := storedNewReader
    sha1Sum := padSum sha1Size
    sha256Sum := padSum sha256Size }

/-! ## Predicates of the specification and sample values -/

deriving instance DecidableEq for Except

/-- A byte that is a hexadecimal digit, of either case. -/
def IsHexDigit (c : Byte) : Prop :=
  (48 ≤ c.val ∧ c.val ≤ 57) ∨ (97 ≤ c.val ∧ c.val ≤ 102) ∨ (65 ≤ c.val ∧ c.val ≤ 70)

/-- A string that is not the hex encoding of any byte sequence: it holds a byte that is
no hexadecimal digit, or it has an odd number of characters. -/
def MalformedHex (s : List Byte) : Prop :=
  (∃ c ∈ s, ¬ IsHexDigit c) ∨ s.length % 2 = 1

/-- A character of the standard base64 alphabet: a letter, a digit, `+` or `/`. -/
def StdAlphabet (c : Byte) : Prop :=
  (65 ≤ c.val ∧ c.val ≤ 90) ∨ (97 ≤ c.val ∧ c.val ≤ 122) ∨ (48 ≤ c.val ∧ c.val ≤ 57) ∨
    c.val = 43 ∨ c.val = 47

instance (c : Byte) : Decidable (IsHexDigit c) := by
  unfold IsHexDigit; infer_instance

instance (s : List Byte) : Decidable (MalformedHex s) := by
  unfold MalformedHex; infer_instance

instance (c : Byte) : Decidable (StdAlphabet c) := by
  unfold StdAlphabet; infer_instance

/-- The contract of `compress/gzip` that the package relies on: the reader opened on what
the writer produced for `b`, read from an input that ends cleanly, delivers exactly `b`
and then `io.EOF`. -/
def GzipRoundTrip (lib : Lib) : Prop :=
  ∀ b : List Byte, ∃ s : Stream,
    lib.gzipNewReader (lib.gzipCompress b) none = Except.ok s ∧ s.content = b ∧
      s.last = Err.EOF

/-- The twelve bytes of the sample binary. -/
def hello : List Byte := bytesOf "hello world!"

/-- The reader that `storedLib` opens on the payload of the sample binary. -/
def helloStream : Stream := { chunks := [hello], last := Err.EOF, eager := true }

/-- The constants generated for the sample binary with `storedLib`, with `n` in the place
of `decodedLen`: `helloPkg 12` is the generated file, any other `n` is a file whose length
constant disagrees with its payload. -/
def helloPkg (n : Nat) : Package :=
  { decodedLen := n
    packerFilename := bytesOf "packer"
    packerSHA1 := hexEncodeToString (storedLib.sha1Sum hello).val
    packerSHA256 := hexEncodeToString (storedLib.sha256Sum hello).val
    packerBinary := literalBody (rawStdEncode (storedLib.gzipCompress hello)) }

/-- A package whose stored digests are the given strings. -/
def digestPkg (s1 s256 : List Byte) : Package :=
  { decodedLen := 0, packerFilename := [], packerSHA1 := s1, packerSHA256 := s256,
    packerBinary := [] }

/-- An environment with the usual umask 022 in which nothing fails. -/
def plainEnv : FileEnv :=
  { umask := 0o022, openErr := fun _ => none, removeErr := fun _ => none,
    writeLimit := none, writeErr := Err.other 28, closeErr := none }

/-- An environment whose destination takes five bytes and then fails. -/
def fullEnv : FileEnv :=
  { umask := 0o022, openErr := fun _ => none, removeErr := fun _ => none,
    writeLimit := some 5, writeErr := Err.other 28, closeErr := none }

/-- An environment whose destination takes five bytes and then fails, and in which the
removal of a file is refused. -/
def stuckEnv : FileEnv :=
  { umask := 0o022, openErr := fun _ => none, removeErr := fun _ => some (Err.other 1),
    writeLimit := some 5, writeErr := Err.other 28, closeErr := none }

/-- An environment with the umask 0177, in which nothing fails. -/
def maskedEnv : FileEnv :=
  { umask := 0o177, openErr := fun _ => none, removeErr := fun _ => none,
    writeLimit := none, writeErr := Err.other 28, closeErr := none }

/-! ## Lemmas -/

theorem list_two_step {α : Type} {P : List α → Prop} (h0 : P []) (h1 : ∀ a, P [a])
    (h2 : ∀ a b l, P l → P (a :: b :: l)) : ∀ l, P l := by
  intro l
  have key : ∀ n, ∀ l : List α, l.length ≤ n → P l := by
    intro n
    induction n with
    | zero =>
      intro l hl
      cases l with
      | nil => exact h0
      | cons a t => simp at hl
    | succ n ih =>
      intro l hl
      match l, hl with
      | [], _ => exact h0
      | [a], _ => exact h1 a
      | a :: b :: t, hl =>
        apply h2
        apply ih
        simp at hl
        omega
  exact key l.length l (Nat.le_refl _)

theorem toByte_val (b : Byte) : toByte b.val = b :=
  Fin.ext (Nat.mod_eq_of_lt b.isLt)

theorem fromHexChar_hextable : ∀ n, n < 16 → fromHexChar (hextable.getD n 0) = some n := by
  decide

theorem fromHexChar_eq_none (c : Byte) : fromHexChar c = none ↔ ¬ IsHexDigit c := by
  unfold fromHexChar IsHexDigit
  split_ifs <;> simp <;> omega

theorem hexDecodeString_encode (d : List Byte) :
    hexDecodeString (hexEncodeToString d) = (d, none) := by
  induction d with
  | nil => rfl
  | cons v rest ih =>
    have h1 : v.val / 16 < 16 := by have := v.isLt; omega
    have h2 : v.val % 16 < 16 := by omega
    have h3 : toByte (v.val / 16 * 16 + v.val % 16) = v := by
      have : v.val / 16 * 16 + v.val % 16 = v.val := by omega
      rw [this, toByte_val]
    simp only [hexEncodeToString, hexDecodeString]
    rw [fromHexChar_hextable _ h1, fromHexChar_hextable _ h2]
    simp only [ih, h3]

theorem hexDecodeString_err (s : List Byte) :
    (hexDecodeString s).2 = none ↔ ¬ MalformedHex s := by
  induction s using list_two_step with
  | h0 => simp [hexDecodeString, MalformedHex]
  | h1 a =>
    simp only [hexDecodeString, MalformedHex]
    cases h : fromHexChar a <;> simp
  | h2 a b l ih =>
    simp only [hexDecodeString]
    cases ha : fromHexChar a with
    | none =>
      have := (fromHexChar_eq_none a).1 ha
      simp [MalformedHex, this]
    | some x =>
      cases hb : fromHexChar b with
      | none =>
        have := (fromHexChar_eq_none b).1 hb
        simp [MalformedHex, this]
      | some y =>
        have ha1 : IsHexDigit a := by
          by_contra hc
          rw [(fromHexChar_eq_none a).2 hc] at ha
          cases ha
        have hb1 : IsHexDigit b := by
          by_contra hc
          rw [(fromHexChar_eq_none b).2 hc] at hb
          cases hb
        simp only [ih]
        simp only [MalformedHex, List.mem_cons, List.length_cons]
        constructor
        · rintro h (⟨c, hc, hn⟩ | hodd)
          · rcases hc with rfl | rfl | hc
            · exact hn ha1
            · exact hn hb1
            · exact h (Or.inl ⟨c, hc, hn⟩)
          · exact h (Or.inr (by omega))
        · rintro h (⟨c, hc, hn⟩ | hodd)
          · exact h (Or.inl ⟨c, Or.inr (Or.inr hc), hn⟩)
          · exact h (Or.inr (by omega))

theorem hexDecodeString_length (s : List Byte) (h : (hexDecodeString s).2 = none) :
    (hexDecodeString s).1.length = s.length / 2 := by
  induction s using list_two_step with
  | h0 => simp [hexDecodeString]
  | h1 a =>
    simp only [hexDecodeString] at h
    cases h' : fromHexChar a <;> simp [h'] at h
  | h2 a b l ih =>
    simp only [hexDecodeString] at h ⊢
    cases ha : fromHexChar a with
    | none => simp [ha] at h
    | some x =>
      cases hb : fromHexChar b with
      | none => simp [ha, hb] at h
      | some y =>
        simp only [ha, hb] at h
        simp only [List.length_cons, ih h]
        omega

theorem copy_zeros (n : Nat) (d : List Byte) :
    copy (List.replicate n 0) d = d.take n ++ List.replicate (n - d.length) 0 := by
  simp [copy, List.drop_replicate]

theorem Sha1_error_iff (pkg : Package) :
    (∃ e, Sha1 pkg = Except.error e) ↔ MalformedHex pkg.packerSHA1 := by
  have h := hexDecodeString_err pkg.packerSHA1
  unfold Sha1
  rcases hd : hexDecodeString pkg.packerSHA1 with ⟨d, _ | e⟩
  · rw [hd] at h
    have : ¬ MalformedHex pkg.packerSHA1 := h.1 rfl
    simp [this]
  · rw [hd] at h
    have : MalformedHex pkg.packerSHA1 := by
      by_contra hc
      have := h.2 hc
      simp at this
    simp [this]

theorem Sha256_error_iff (pkg : Package) :
    (∃ e, Sha256 pkg = Except.error e) ↔ MalformedHex pkg.packerSHA256 := by
  have h := hexDecodeString_err pkg.packerSHA256
  unfold Sha256
  rcases hd : hexDecodeString pkg.packerSHA256 with ⟨d, _ | e⟩
  · rw [hd] at h
    have : ¬ MalformedHex pkg.packerSHA256 := h.1 rfl
    simp [this]
  · rw [hd] at h
    have : MalformedHex pkg.packerSHA256 := by
      by_contra hc
      have := h.2 hc
      simp at this
    simp [this]

theorem Sha1_of_decode (pkg : Package) (d : List Byte)
    (h : hexDecodeString pkg.packerSHA1 = (d, none)) :
    Sha1 pkg = Except.ok (d.take 20 ++ List.replicate (20 - d.length) 0) := by
  unfold Sha1
  rw [h]
  simp only [sha1Size, copy_zeros]

theorem Sha256_of_decode (pkg : Package) (d : List Byte)
    (h : hexDecodeString pkg.packerSHA256 = (d, none)) :
    Sha256 pkg = Except.ok (d.take 32 ++ List.replicate (32 - d.length) 0) := by
  unfold Sha256
  rw [h]
  simp only [sha256Size, copy_zeros]

theorem take_pad_eq_iff (n : Nat) (d : List Byte) :
    d.take n ++ List.replicate (n - d.length) 0 = d ↔ d.length = n := by
  constructor
  · intro h
    have := congrArg List.length h
    simp at this
    omega
  · intro h
    rw [← h]; simp

theorem list_three_step {α : Type} {P : List α → Prop} (h0 : P []) (h1 : ∀ a, P [a])
    (h2 : ∀ a b, P [a, b]) (h3 : ∀ a b c l, P l → P (a :: b :: c :: l)) : ∀ l, P l := by
  intro l
  have key : ∀ n, ∀ l : List α, l.length ≤ n → P l := by
    intro n
    induction n with
    | zero =>
      intro l hl
      cases l with
      | nil => exact h0
      | cons a t => simp at hl
    | succ n ih =>
      intro l hl
      match l, hl with
      | [], _ => exact h0
      | [a], _ => exact h1 a
      | [a, b], _ => exact h2 a b
      | a :: b :: c :: t, hl =>
        apply h3
        apply ih
        simp at hl
        omega
  exact key l.length l (Nat.le_refl _)

theorem encodeStd_table :
    ∀ n, n < 64 → StdAlphabet (encodeStd.getD n 0) ∧ decodeMap (encodeStd.getD n 0) = some n := by
  decide

theorem b64Char_alphabet (v : Nat) : StdAlphabet (b64Char v) :=
  (encodeStd_table (v % 64) (Nat.mod_lt _ (by decide))).1

theorem decodeMap_b64Char (v : Nat) : decodeMap (b64Char v) = some (v % 64) :=
  (encodeStd_table (v % 64) (Nat.mod_lt _ (by decide))).2

theorem rawStdEncode_alphabet (x : List Byte) : ∀ c ∈ rawStdEncode x, StdAlphabet c := by
  induction x using list_three_step with
  | h0 => simp [rawStdEncode]
  | h1 a => simp [rawStdEncode, b64Char_alphabet]
  | h2 a b => simp [rawStdEncode, b64Char_alphabet]
  | h3 a b c l ih =>
    intro x hx
    simp only [rawStdEncode, List.mem_cons] at hx
    rcases hx with rfl | rfl | rfl | rfl | hx
    · exact b64Char_alphabet _
    · exact b64Char_alphabet _
    · exact b64Char_alphabet _
    · exact b64Char_alphabet _
    · exact ih x hx

theorem toByte_eq (n : Nat) (b : Byte) (h : n % 256 = b.val) : toByte n = b :=
  Fin.ext h

theorem rawStdDecode_encode (x : List Byte) : rawStdDecode (rawStdEncode x) = (x, none) := by
  induction x using list_three_step with
  | h0 => rfl
  | h1 a =>
    have ha := a.isLt
    simp only [rawStdEncode, rawStdDecode, decodeMap_b64Char]
    rw [toByte_eq _ a (by omega)]
  | h2 a b =>
    have ha := a.isLt
    have hb := b.isLt
    simp only [rawStdEncode, rawStdDecode, decodeMap_b64Char]
    rw [toByte_eq _ a (by omega), toByte_eq _ b (by omega)]
  | h3 a b c l ih =>
    have ha := a.isLt
    have hb := b.isLt
    have hc := c.isLt
    simp only [rawStdEncode, rawStdDecode, decodeMap_b64Char, ih]
    rw [toByte_eq _ a (by omega), toByte_eq _ b (by omega), toByte_eq _ c (by omega)]

theorem stripNewlines_of_alphabet (s : List Byte) (h : ∀ c ∈ s, StdAlphabet c) :
    stripNewlines s = s := by
  unfold stripNewlines
  rw [List.filter_eq_self]
  intro c hc
  have := h c hc
  unfold StdAlphabet at this
  simp only [decide_eq_true_eq]
  omega

theorem stripNewlines_layoutLoop (fuel : Nat) :
    ∀ buf : List Byte, buf.length ≤ fuel →
      stripNewlines (layoutLoop fuel buf) = stripNewlines buf := by
  induction fuel with
  | zero =>
    intro buf h
    have : buf = [] := List.length_eq_zero.1 (by omega)
    subst this
    rfl
  | succ fuel ih =>
    intro buf h
    unfold layoutLoop
    split_ifs with hpos
    · have hdrop : (buf.drop 80).length ≤ fuel := by
        simp only [List.length_drop]; omega
      have := ih (buf.drop 80) hdrop
      unfold stripNewlines at this ⊢
      rw [List.filter_append, List.filter_cons]
      simp only [this]
      rw [if_neg (by decide), ← List.filter_append, List.take_append_drop]
    · have : buf = [] := List.length_eq_zero.1 (by omega)
      subst this
      rfl

theorem stripNewlines_literalBody (buf : List Byte) :
    stripNewlines (literalBody buf) = stripNewlines buf := by
  unfold literalBody
  have := stripNewlines_layoutLoop buf.length buf (Nat.le_refl _)
  unfold stripNewlines at this ⊢
  rw [List.filter_cons, if_neg (by decide), this]

theorem mem_layoutLoop (fuel : Nat) :
    ∀ (buf : List Byte) (c : Byte), c ∈ layoutLoop fuel buf → c ∈ buf ∨ c = 10 := by
  induction fuel with
  | zero => intro buf c h; simp [layoutLoop] at h
  | succ fuel ih =>
    intro buf c h
    unfold layoutLoop at h
    split_ifs at h with hpos
    · simp only [List.mem_append, List.mem_cons] at h
      rcases h with h | h | h
      · exact Or.inl (List.mem_of_mem_take h)
      · exact Or.inr h
      · rcases ih _ c h with h | h
        · exact Or.inl (List.mem_of_mem_drop h)
        · exact Or.inr h
    · simp at h

theorem readChunks_spec (last : Err) (eager : Bool) (cap : Nat) :
    ∀ chunks : List (List Byte),
      (readChunks last eager cap chunks).1 ++ (readChunks last eager cap chunks).2.2.flatten
          = chunks.flatten ∧
      (readChunks last eager cap chunks).1.length ≤ cap ∧
      (∀ e, (readChunks last eager cap chunks).2.1 = some e →
          e = last ∧ (readChunks last eager cap chunks).2.2 = []) ∧
      ((readChunks last eager cap chunks).2.1 = none → 0 < cap →
          0 < (readChunks last eager cap chunks).1.length) ∧
      (chunks.flatten = [] → (readChunks last eager cap chunks).2.1 = some last) := by
  intro chunks
  induction chunks with
  | nil => simp [readChunks]
  | cons ch rest ih =>
    cases ch with
    | nil => simpa [readChunks] using ih
    | cons b c =>
      unfold readChunks
      split_ifs with h1 h2
      · refine ⟨?_, ?_, ?_, ?_, ?_⟩
        · simp only [List.flatten_cons, ← List.append_assoc, List.take_append_drop]
        · simp only [List.length_take]; omega
        · intro e he; simp at he
        · intro _ hcap
          simp only [List.length_take, List.length_cons]
          omega
        · intro hc; simp at hc
      · refine ⟨?_, ?_, ?_, ?_, ?_⟩
        · simp [h2.2]
        · show (b :: c).length ≤ cap
          omega
        · intro e he
          simp only [Option.some.injEq] at he
          exact ⟨he.symm, rfl⟩
        · intro hn; simp at hn
        · intro hc; simp at hc
      · refine ⟨?_, ?_, ?_, ?_, ?_⟩
        · simp
        · show (b :: c).length ≤ cap
          omega
        · intro e he; simp at he
        · intro _ _; simp
        · intro hc; simp at hc

theorem read_content (s : Stream) (cap : Nat) :
    (s.read cap).data ++ (s.read cap).next.content = s.content :=
  (readChunks_spec s.last s.eager cap s.chunks).1

theorem read_length (s : Stream) (cap : Nat) : (s.read cap).data.length ≤ cap :=
  (readChunks_spec s.last s.eager cap s.chunks).2.1

theorem read_err (s : Stream) (cap : Nat) (e : Err) (h : (s.read cap).err = some e) :
    e = s.last ∧ (s.read cap).next.content = [] := by
  have := (readChunks_spec s.last s.eager cap s.chunks).2.2.1 e h
  refine ⟨this.1, ?_⟩
  show (readChunks s.last s.eager cap s.chunks).2.2.flatten = []
  rw [this.2]; rfl

theorem read_progress (s : Stream) (cap : Nat) (h : (s.read cap).err = none) (hcap : 0 < cap) :
    0 < (s.read cap).data.length :=
  (readChunks_spec s.last s.eager cap s.chunks).2.2.2.1 h hcap

theorem read_of_empty (s : Stream) (cap : Nat) (h : s.content = []) :
    (s.read cap).err = some s.last :=
  (readChunks_spec s.last s.eager cap s.chunks).2.2.2.2 h

theorem read_content_length (s : Stream) (cap : Nat) :
    (s.read cap).data.length + (s.read cap).next.content.length = s.content.length := by
  rw [← read_content s cap, List.length_append]

theorem copy_length (dst src : List Byte) : (copy dst src).length = dst.length := by
  simp [copy]; omega

theorem store_eq (p : List Byte) (n : Nat) (data : List Byte)
    (hd : data.length ≤ p.length - n) :
    p.take n ++ copy (p.drop n) data = p.take n ++ data ++ p.drop (n + data.length) := by
  have h1 : data.length ≤ (p.drop n).length := by
    simp only [List.length_drop]; omega
  unfold copy
  rw [List.take_of_length_le h1, List.drop_drop, List.append_assoc, Nat.add_comm]

theorem store_length (p : List Byte) (n : Nat) (data : List Byte) :
    (p.take n ++ copy (p.drop n) data).length = p.length := by
  simp [copy_length]; omega

theorem readLoop_succ (fuel : Nat) (r : Stream) (p : List Byte) (n : Nat) :
    readLoop (fuel + 1) r p n =
      match (r.read (p.length - n)).err with
      | some Err.EOF =>
        some (Except.ok (p.take n ++ copy (p.drop n) (r.read (p.length - n)).data,
          n + (r.read (p.length - n)).data.length))
      | some e => some (Except.error e)
      | none => readLoop fuel (r.read (p.length - n)).next
          (p.take n ++ copy (p.drop n) (r.read (p.length - n)).data)
          (n + (r.read (p.length - n)).data.length) := rfl

theorem readLoop_ok (fuel : Nat) :
    ∀ (r : Stream) (p : List Byte) (n : Nat) (p' : List Byte) (n' : Nat), n ≤ p.length →
      readLoop fuel r p n = some (Except.ok (p', n')) →
      r.last = Err.EOF ∧ n' = n + r.content.length ∧ n' ≤ p.length ∧
        p' = p.take n ++ r.content ++ p.drop n' := by
  induction fuel with
  | zero => intro r p n p' n' _ h; simp [readLoop] at h
  | succ fuel ih =>
    intro r p n p' n' hn h
    rw [readLoop_succ] at h
    have hlen := read_length r (p.length - n)
    have hcont := read_content r (p.length - n)
    have hstore := store_eq p n _ hlen
    split at h
    · rename_i herr
      obtain ⟨h1, h2⟩ := read_err r _ _ herr
      simp only [Option.some.injEq, Except.ok.injEq, Prod.mk.injEq] at h
      rw [h2, List.append_nil] at hcont
      rw [← hcont]
      refine ⟨h1.symm, h.2.symm, ?_, ?_⟩
      · rw [← h.2]; omega
      · rw [← h.1, ← h.2, hstore]
    · simp at h
    · have hi := ih _ _ _ p' n' (by rw [store_length]; omega) h
      rw [store_length] at hi
      obtain ⟨h1, h2, h3, h4⟩ := hi
      have hcl := read_content_length r (p.length - n)
      refine ⟨h1, by omega, h3, ?_⟩
      rw [h4, hstore, ← hcont]
      have e1 : (p.take n ++ (r.read (p.length - n)).data
            ++ p.drop (n + (r.read (p.length - n)).data.length)).take
            (n + (r.read (p.length - n)).data.length)
          = p.take n ++ (r.read (p.length - n)).data := by
        have hl : (p.take n ++ (r.read (p.length - n)).data).length
            = n + (r.read (p.length - n)).data.length := by
          simp only [List.length_append, List.length_take]; omega
        rw [List.take_append_of_le_length (by omega)]
        rw [List.take_of_length_le (by omega)]
      have e2 : (p.take n ++ (r.read (p.length - n)).data
            ++ p.drop (n + (r.read (p.length - n)).data.length)).drop n'
          = p.drop n' := by
        have : n' = (p.take n ++ (r.read (p.length - n)).data).length
            + (r.read (p.length - n)).next.content.length := by
          simp; omega
        rw [this, ← List.drop_drop, List.drop_left, List.drop_drop]
        congr 1
        simp; omega
      rw [e1, e2]
      simp only [List.append_assoc]

theorem readLoop_error (fuel : Nat) :
    ∀ (r : Stream) (p : List Byte) (n : Nat) (e : Err),
      readLoop fuel r p n = some (Except.error e) → e = r.last ∧ e ≠ Err.EOF := by
  induction fuel with
  | zero => intro r p n e h; simp [readLoop] at h
  | succ fuel ih =>
    intro r p n e h
    rw [readLoop_succ] at h
    split at h
    · simp at h
    · rename_i e' hne herr
      simp only [Option.some.injEq, Except.error.injEq] at h
      subst h
      refine ⟨(read_err r _ _ herr).1, ?_⟩
      intro hc
      exact hne hc
    · have := ih _ _ _ e h
      exact this

theorem readLoop_terminates (fuel : Nat) :
    ∀ (r : Stream) (p : List Byte) (n : Nat), r.content.length < fuel →
      r.content.length ≤ p.length - n → ∃ res, readLoop fuel r p n = some res := by
  induction fuel with
  | zero => intro r p n h; omega
  | succ fuel ih =>
    intro r p n hf hroom
    rw [readLoop_succ]
    have hlen := read_length r (p.length - n)
    have hcl := read_content_length r (p.length - n)
    split
    · exact ⟨_, rfl⟩
    · exact ⟨_, rfl⟩
    · rename_i herr
      by_cases hz : r.content = []
      · rw [read_of_empty r _ hz] at herr
        cases herr
      · have hpos : 0 < r.content.length := List.length_pos.2 hz
        have hprog := read_progress r _ herr (by omega)
        apply ih
        · omega
        · rw [store_length]; omega

theorem readLoop_diverges (fuel : Nat) :
    ∀ (r : Stream) (p : List Byte) (n : Nat), p.length - n < r.content.length →
      readLoop fuel r p n = none := by
  induction fuel with
  | zero => intro r p n _; rfl
  | succ fuel ih =>
    intro r p n hroom
    rw [readLoop_succ]
    have hlen := read_length r (p.length - n)
    have hcl := read_content_length r (p.length - n)
    have hnone : (r.read (p.length - n)).err = none := by
      cases herr : (r.read (p.length - n)).err with
      | none => rfl
      | some e =>
        have := (read_err r _ e herr).2
        rw [this] at hcl
        simp at hcl
        omega
    rw [hnone]
    apply ih
    rw [store_length]
    omega

theorem Bytes_ok_inv (lib : Lib) (pkg : Package) (r : Stream)
    (hr : newReader lib pkg = Except.ok r) (fuel : Nat) (p : List Byte)
    (h : Bytes lib pkg fuel = some (Except.ok p)) :
    r.last = Err.EOF ∧ p = r.content ∧ r.content.length = pkg.decodedLen := by
  unfold Bytes at h
  rw [hr] at h
  simp only at h
  cases hl : readLoop fuel r (List.replicate pkg.decodedLen 0) 0 with
  | none => rw [hl] at h; simp at h
  | some res =>
    rw [hl] at h
    match res, hl, h with
    | Except.error e, hl, h => simp at h
    | Except.ok (p', n'), hl, h =>
      simp only at h
      obtain ⟨h1, h2, h3, h4⟩ := readLoop_ok fuel r _ 0 p' n' (Nat.zero_le _) hl
      split_ifs at h with hn
      · simp at h
      simp only [Option.some.injEq, Except.ok.injEq] at h
      subst h
      simp only [List.length_replicate, Nat.zero_add] at h2 h3
      have hn' : n' = pkg.decodedLen := by omega
      refine ⟨h1, ?_, by omega⟩
      rw [h4]
      simp [hn']

theorem Bytes_exact (lib : Lib) (pkg : Package) (r : Stream)
    (hr : newReader lib pkg = Except.ok r) (hlast : r.last = Err.EOF)
    (hlen : r.content.length = pkg.decodedLen) (fuel : Nat) (hf : r.content.length < fuel) :
    Bytes lib pkg fuel = some (Except.ok r.content) := by
  obtain ⟨res, hres⟩ := readLoop_terminates fuel r (List.replicate pkg.decodedLen 0) 0 hf
    (by simp; omega)
  unfold Bytes
  rw [hr]
  simp only
  rw [hres]
  match res, hres with
  | Except.error e, hres =>
    have := readLoop_error fuel r _ 0 e hres
    rw [hlast] at this
    exact absurd this.1 this.2
  | Except.ok (p', n'), hres =>
    obtain ⟨h1, h2, h3, h4⟩ := readLoop_ok fuel r _ 0 p' n' (Nat.zero_le _) hres
    simp only [List.length_replicate, Nat.zero_add] at h2 h3
    have hn : n' = pkg.decodedLen := by omega
    simp only [hn, ne_eq, not_true_eq_false, if_false]
    rw [h4]
    simp [hn]

theorem Bytes_short (lib : Lib) (pkg : Package) (r : Stream)
    (hr : newReader lib pkg = Except.ok r) (hlast : r.last = Err.EOF)
    (hlen : r.content.length < pkg.decodedLen) (fuel : Nat) (hf : r.content.length < fuel) :
    Bytes lib pkg fuel = some (Except.error Err.ErrUnexpectedEOF) := by
  obtain ⟨res, hres⟩ := readLoop_terminates fuel r (List.replicate pkg.decodedLen 0) 0 hf
    (by simp; omega)
  unfold Bytes
  rw [hr]
  simp only
  rw [hres]
  match res, hres with
  | Except.error e, hres =>
    have := readLoop_error fuel r _ 0 e hres
    rw [hlast] at this
    exact absurd this.1 this.2
  | Except.ok (p', n'), hres =>
    obtain ⟨h1, h2, h3, h4⟩ := readLoop_ok fuel r _ 0 p' n' (Nat.zero_le _) hres
    simp only [List.length_replicate, Nat.zero_add] at h2 h3
    have hn : n' ≠ pkg.decodedLen := by omega
    simp only [hn, ne_eq, not_false_eq_true, if_true]

theorem Bytes_read_error (lib : Lib) (pkg : Package) (r : Stream)
    (hr : newReader lib pkg = Except.ok r) (hlast : r.last ≠ Err.EOF)
    (hlen : r.content.length ≤ pkg.decodedLen) (fuel : Nat) (hf : r.content.length < fuel) :
    Bytes lib pkg fuel = some (Except.error r.last) := by
  obtain ⟨res, hres⟩ := readLoop_terminates fuel r (List.replicate pkg.decodedLen 0) 0 hf
    (by simp; omega)
  unfold Bytes
  rw [hr]
  simp only
  rw [hres]
  match res, hres with
  | Except.error e, hres =>
    have := readLoop_error fuel r _ 0 e hres
    rw [this.1]
  | Except.ok (p1, n1), hres =>
    exact absurd (readLoop_ok fuel r _ 0 p1 n1 (Nat.zero_le _) hres).1 hlast

theorem Bytes_returns (lib : Lib) (pkg : Package) (r : Stream)
    (hr : newReader lib pkg = Except.ok r)
    (hlen : r.content.length ≤ pkg.decodedLen) (fuel : Nat) (hf : r.content.length < fuel) :
    ∃ res, Bytes lib pkg fuel = some res := by
  obtain ⟨res, hres⟩ := readLoop_terminates fuel r (List.replicate pkg.decodedLen 0) 0 hf
    (by simp; omega)
  unfold Bytes
  rw [hr]
  simp only
  rw [hres]
  match res with
  | Except.error e => exact ⟨_, rfl⟩
  | Except.ok (p', n') =>
    simp only
    split_ifs
    · exact ⟨_, rfl⟩
    · exact ⟨_, rfl⟩

theorem Bytes_overlong (lib : Lib) (pkg : Package) (r : Stream)
    (hr : newReader lib pkg = Except.ok r)
    (hlen : pkg.decodedLen < r.content.length) (fuel : Nat) :
    Bytes lib pkg fuel = none := by
  unfold Bytes
  rw [hr]
  simp only
  rw [readLoop_diverges fuel r _ 0 (by simp; omega)]

theorem main_ok (lib : Lib) (BinaryName B : List Byte) :
    ∃ pkg, main lib BinaryName (Except.ok B) = Except.ok pkg ∧ pkg.decodedLen = B.length ∧
      pkg.packerSHA1 = hexEncodeToString (lib.sha1Sum B).val ∧
      pkg.packerSHA256 = hexEncodeToString (lib.sha256Sum B).val ∧
      pkg.packerBinary = literalBody (rawStdEncode (lib.gzipCompress B)) :=
  ⟨_, rfl, rfl, rfl, rfl, rfl⟩

theorem newReader_literalBody (lib : Lib) (pkg : Package) (z : List Byte)
    (h : pkg.packerBinary = literalBody (rawStdEncode z)) :
    newReader lib pkg = lib.gzipNewReader z none := by
  unfold newReader
  rw [h, stripNewlines_literalBody, stripNewlines_of_alphabet _ (rawStdEncode_alphabet z),
    rawStdDecode_encode]

theorem Bytes_main (lib : Lib) (hgz : GzipRoundTrip lib) (BinaryName B : List Byte) :
    ∃ pkg, main lib BinaryName (Except.ok B) = Except.ok pkg ∧ pkg.decodedLen = B.length ∧
      pkg.packerSHA1 = hexEncodeToString (lib.sha1Sum B).val ∧
      pkg.packerSHA256 = hexEncodeToString (lib.sha256Sum B).val ∧
      pkg.packerBinary = literalBody (rawStdEncode (lib.gzipCompress B)) ∧
      (∀ fuel, B.length < fuel → Bytes lib pkg fuel = some (Except.ok B)) ∧
      (∀ fuel D, Bytes lib pkg fuel = some (Except.ok D) → D = B) := by
  obtain ⟨pkg, hm, hd, hs1, hs256, hb⟩ := main_ok lib BinaryName B
  obtain ⟨s, h1, h2, h3⟩ := hgz B
  have hr := (newReader_literalBody lib pkg (lib.gzipCompress B) hb).trans h1
  refine ⟨pkg, hm, hd, hs1, hs256, hb, ?_, ?_⟩
  · intro fuel hf
    have := Bytes_exact lib pkg s hr h3 (by rw [h2, hd]) fuel (by rw [h2]; exact hf)
    rw [h2] at this
    exact this
  · intro fuel D hD
    have := (Bytes_ok_inv lib pkg s hr fuel D hD).2.1
    rw [this, h2]

theorem storedLib_roundTrip : GzipRoundTrip storedLib := by
  intro b
  exact ⟨{ chunks := [b], last := Err.EOF, eager := true }, rfl, by simp [Stream.content], rfl⟩

theorem lookup_none_iff (fs : FS) (name : String) :
    fs.lookup name = none ↔ ∀ e ∈ fs, e.1 ≠ name := by
  induction fs with
  | nil => simp
  | cons e rest ih =>
    obtain ⟨k, f⟩ := e
    simp only [List.lookup_cons, List.mem_cons, forall_eq_or_imp]
    by_cases hk : name = k
    · subst hk; simp
    · have : (name == k) = false := by simpa using hk
      rw [this]
      simp only [ih]
      constructor
      · intro h; exact ⟨fun hc => hk hc.symm, h⟩
      · intro h; exact h.2

theorem unlink_of_lookup_none (fs : FS) (name : String) (h : fs.lookup name = none) :
    unlink fs name = fs := by
  unfold unlink
  rw [List.filter_eq_self]
  intro e he
  simpa using (lookup_none_iff fs name).1 h e he

theorem appendFile_cons (e : String × File) (fs : FS) (name : String) (b : List Byte) :
    appendFile (e :: fs) name b =
      (if e.1 = name then (e.1, { content := e.2.content ++ b, perm := e.2.perm }) else e)
        :: appendFile fs name b := rfl

theorem unlink_cons (e : String × File) (fs : FS) (name : String) :
    unlink (e :: fs) name = if e.1 = name then unlink fs name else e :: unlink fs name := by
  unfold unlink
  rw [List.filter_cons]
  by_cases hk : e.1 = name
  · simp [hk]
  · simp [hk]

theorem unlink_appendFile (fs : FS) (name : String) (b : List Byte) :
    unlink (appendFile fs name b) name = unlink fs name := by
  induction fs with
  | nil => rfl
  | cons e rest ih =>
    rw [appendFile_cons, unlink_cons, unlink_cons]
    by_cases hk : e.1 = name
    · simp only [hk, if_true, ih]
    · simp only [hk, if_false, ih]

theorem appendFile_nil (fs : FS) (name : String) : appendFile fs name [] = fs := by
  induction fs with
  | nil => rfl
  | cons e rest ih =>
    rw [appendFile_cons, ih]
    split_ifs
    · simp
    · rfl

theorem appendFile_append (fs : FS) (name : String) (a b : List Byte) :
    appendFile (appendFile fs name a) name b = appendFile fs name (a ++ b) := by
  induction fs with
  | nil => rfl
  | cons e rest ih =>
    rw [appendFile_cons, appendFile_cons, appendFile_cons, ih]
    by_cases hk : e.1 = name
    · simp [hk]
    · simp [hk]

theorem lookup_appendFile_cons (fs : FS) (name : String) (f : File) (b : List Byte) :
    (appendFile ((name, f) :: fs) name b).lookup name
      = some { content := f.content ++ b, perm := f.perm } := by
  rw [appendFile_cons]
  simp [List.lookup_cons]

theorem fileWrite_spec (env : FileEnv) (fs : FS) (name : String) (off : Nat) (data : List Byte) :
    ∃ b, (fileWrite env fs name off data).2.2 = appendFile fs name b ∧
      ((fileWrite env fs name off data).2.1 = none → b = data) := by
  unfold fileWrite
  cases env.writeLimit with
  | none => exact ⟨data, rfl, fun _ => rfl⟩
  | some lim =>
    simp only
    split_ifs
    · exact ⟨data, rfl, fun _ => rfl⟩
    · exact ⟨_, rfl, fun h => by simp at h⟩

theorem ioCopy_succ (env : FileEnv) (name : String) (fuel : Nat) (r : Stream) (fs : FS)
    (off : Nat) :
    ioCopy env name (fuel + 1) r fs off =
      match (if (r.read 32768).data.length > 0 then fileWrite env fs name off (r.read 32768).data
             else (0, none, fs)).2.1 with
      | some ew => some (some ew,
          (if (r.read 32768).data.length > 0 then fileWrite env fs name off (r.read 32768).data
             else (0, none, fs)).2.2)
      | none =>
        match (r.read 32768).err with
        | some Err.EOF => some (none,
            (if (r.read 32768).data.length > 0 then
               fileWrite env fs name off (r.read 32768).data
             else (0, none, fs)).2.2)
        | some er => some (some er,
            (if (r.read 32768).data.length > 0 then
               fileWrite env fs name off (r.read 32768).data
             else (0, none, fs)).2.2)
        | none => ioCopy env name fuel (r.read 32768).next
            (if (r.read 32768).data.length > 0 then
               fileWrite env fs name off (r.read 32768).data
             else (0, none, fs)).2.2
            (off + (if (r.read 32768).data.length > 0 then
               fileWrite env fs name off (r.read 32768).data
             else (0, none, fs)).1) := rfl

theorem copyWrite_spec (env : FileEnv) (fs : FS) (name : String) (off : Nat) (data : List Byte) :
    ∃ b, (if data.length > 0 then fileWrite env fs name off data else (0, none, fs)).2.2
        = appendFile fs name b ∧
      ((if data.length > 0 then fileWrite env fs name off data else (0, none, fs)).2.1 = none →
        b = data) := by
  split_ifs with h
  · exact fileWrite_spec env fs name off data
  · have : data = [] := List.length_eq_zero.1 (by omega)
    subst this
    exact ⟨[], (appendFile_nil fs name).symm, fun _ => rfl⟩

theorem ioCopy_spec (env : FileEnv) (name : String) (fuel : Nat) :
    ∀ (r : Stream) (fs : FS) (off : Nat) (res : Option Err) (fs' : FS),
      ioCopy env name fuel r fs off = some (res, fs') →
      ∃ b, fs' = appendFile fs name b ∧ (res = none → b = r.content ∧ r.last = Err.EOF) := by
  induction fuel with
  | zero => intro r fs off res fs' h; simp [ioCopy] at h
  | succ fuel ih =>
    intro r fs off res fs' h
    rw [ioCopy_succ] at h
    obtain ⟨b, hb1, hb2⟩ := copyWrite_spec env fs name off (r.read 32768).data
    have hcont := read_content r 32768
    split at h
    · simp only [Option.some.injEq, Prod.mk.injEq] at h
      refine ⟨b, ?_, ?_⟩
      · rw [← h.2, hb1]
      · intro hn; rw [hn] at h; simp at h
    · rename_i hw
      have hbd := hb2 hw
      split at h
      · rename_i herr
        obtain ⟨h1, h2⟩ := read_err r _ _ herr
        simp only [Option.some.injEq, Prod.mk.injEq] at h
        refine ⟨b, ?_, ?_⟩
        · rw [← h.2, hb1]
        · intro _
          rw [h2, List.append_nil] at hcont
          exact ⟨by rw [hbd, hcont], h1.symm⟩
      · simp only [Option.some.injEq, Prod.mk.injEq] at h
        refine ⟨b, ?_, ?_⟩
        · rw [← h.2, hb1]
        · intro hn; rw [hn] at h; simp at h
      · obtain ⟨b', hb'1, hb'2⟩ := ih _ _ _ res fs' h
        refine ⟨b ++ b', ?_, ?_⟩
        · rw [hb'1, hb1, appendFile_append]
        · intro hn
          obtain ⟨h1, h2⟩ := hb'2 hn
          refine ⟨?_, h2⟩
          rw [h1, hbd, hcont]

theorem ioCopy_terminates (env : FileEnv) (name : String) (fuel : Nat) :
    ∀ (r : Stream) (fs : FS) (off : Nat), r.content.length < fuel →
      ∃ res, ioCopy env name fuel r fs off = some res := by
  induction fuel with
  | zero => intro r fs off h; omega
  | succ fuel ih =>
    intro r fs off hf
    rw [ioCopy_succ]
    have hcl := read_content_length r 32768
    split
    · exact ⟨_, rfl⟩
    · split
      · exact ⟨_, rfl⟩
      · exact ⟨_, rfl⟩
      · rename_i herr
        by_cases hz : r.content = []
        · rw [read_of_empty r _ hz] at herr
          cases herr
        · have hpos : 0 < r.content.length := List.length_pos.2 hz
          have hprog := read_progress r _ herr (by decide)
          apply ih
          omega

theorem openFile_ok (env : FileEnv) (fs : FS) (name : String) (perm : Nat) (fs0 : FS)
    (h : openFile env fs name perm = Except.ok fs0) :
    fs.lookup name = none ∧
      fs0 = (name, { content := [], perm := applyUmask perm env.umask }) :: fs := by
  unfold openFile at h
  cases hl : fs.lookup name with
  | some f => rw [hl] at h; simp at h
  | none =>
    rw [hl] at h
    simp only at h
    cases ho : env.openErr name with
    | some e => rw [ho] at h; simp at h
    | none =>
      rw [ho] at h
      simp only [Except.ok.injEq] at h
      exact ⟨rfl, h.symm⟩

theorem layoutLoop_lines (fuel : Nat) :
    ∀ buf : List Byte, buf.length ≤ fuel →
      ∃ lines : List (List Byte),
        layoutLoop fuel buf = (lines.map (fun l => l ++ [10])).flatten ∧
        lines.flatten = buf ∧ ∀ l ∈ lines, 0 < l.length ∧ l.length ≤ 80 := by
  induction fuel with
  | zero =>
    intro buf h
    have : buf = [] := List.length_eq_zero.1 (by omega)
    subst this
    exact ⟨[], rfl, rfl, by simp⟩
  | succ fuel ih =>
    intro buf h
    unfold layoutLoop
    split_ifs with hpos
    · have hdrop : (buf.drop 80).length ≤ fuel := by
        simp only [List.length_drop]; omega
      obtain ⟨lines, h1, h2, h3⟩ := ih (buf.drop 80) hdrop
      refine ⟨buf.take 80 :: lines, ?_, ?_, ?_⟩
      · rw [h1]; simp
      · rw [List.flatten_cons, h2, List.take_append_drop]
      · intro l hl
        rcases List.mem_cons.1 hl with rfl | hl
        · simp only [List.length_take]; omega
        · exact h3 l hl
    · have : buf = [] := List.length_eq_zero.1 (by omega)
      subst this
      exact ⟨[], rfl, rfl, by simp⟩

theorem remove_snd (env : FileEnv) (fs : FS) (name : String)
    (h : env.removeErr name = none) : (remove env fs name).2 = unlink fs name := by
  unfold remove
  rw [h]
  simp only
  cases hl : fs.lookup name with
  | none => exact (unlink_of_lookup_none fs name hl).symm
  | some f => rfl

theorem remove_refused (env : FileEnv) (fs : FS) (name : String) (e : Err)
    (h : env.removeErr name = some e) : remove env fs name = (some e, fs) := by
  unfold remove
  rw [h]

set_option maxRecDepth 100000 in
theorem umask_bits_table :
    ∀ m, m < 512 →
      (m &&& 0o755 = 0 → 0o755 &&& (0o777 ^^^ m) = 0o755) ∧
      (m &&& 0o100 = 0 → (0o755 &&& (0o777 ^^^ m)) &&& 0o100 = 0o100) := by
  decide

theorem applyUmask_unmasked (umask : Nat) (h : umask &&& 0o755 = 0) :
    applyUmask 0o755 umask = 0o755 := by
  unfold applyUmask
  have hm : umask &&& 0o777 < 512 := Nat.and_lt_two_pow umask (by decide : 0o777 < 2 ^ 9)
  have h1 : (umask &&& 0o777) &&& 0o755 = 0 := by
    rw [Nat.and_assoc, (by decide : 0o777 &&& 0o755 = 0o755), h]
  exact (umask_bits_table _ hm).1 h1

theorem applyUmask_owner_execute (umask : Nat) (h : umask &&& 0o100 = 0) :
    applyUmask 0o755 umask &&& 0o100 = 0o100 := by
  unfold applyUmask
  have hm : umask &&& 0o777 < 512 := Nat.and_lt_two_pow umask (by decide : 0o777 < 2 ^ 9)
  have h1 : (umask &&& 0o777) &&& 0o100 = 0 := by
    rw [Nat.and_assoc, (by decide : 0o777 &&& 0o100 = 0o100), h]
  exact (umask_bits_table _ hm).2 h1

theorem WriteFile_returns (lib : Lib) (pkg : Package) (env : FileEnv) (fs : FS)
    (name : String) :
    ∃ fuel res, WriteFile lib pkg env fs name fuel = some res := by
  unfold WriteFile
  cases newReader lib pkg with
  | error e => exact ⟨0, _, rfl⟩
  | ok r =>
    simp only
    cases openFile env fs name 0o755 with
    | error e => exact ⟨0, _, rfl⟩
    | ok fs0 =>
      simp only
      obtain ⟨res, hres⟩ :=
        ioCopy_terminates env name (r.content.length + 1) r fs0 0 (Nat.lt_succ_self _)
      refine ⟨r.content.length + 1, ?_⟩
      rw [hres]
      match res with
      | (some e, fs1) => exact ⟨_, rfl⟩
      | (none, fs1) => exact ⟨_, rfl⟩

/-! ## The claims -/

/-- Claim C1 (round trip through the generated artifact).  For a gzip library that
satisfies `GzipRoundTrip` and every byte sequence `B`, `main` produces a package whose
`decodedLen` is the length of `B` and whose `packerBinary` is a line feed followed by the
payload of `EncodeBinary` (gzip, then unpadded standard base64) cut into lines of 1 to 80
characters, each followed by a line feed; and `Bytes` over that package ends, as soon as
its loop may run more than `len(B)` times, with a nil error and a slice equal to `B`,
whose length is `decodedLen`. -/
theorem generated_artifact_round_trip (lib : Lib) (hgz : GzipRoundTrip lib)
    (BinaryName B : List Byte) :
    ∃ pkg, main lib BinaryName (Except.ok B) = Except.ok pkg ∧
      pkg.decodedLen = B.length ∧
      (∃ lines : List (List Byte),
        pkg.packerBinary = 10 :: (lines.map (fun l => l ++ [10])).flatten ∧
        lines.flatten = rawStdEncode (lib.gzipCompress B) ∧
        ∀ l ∈ lines, 0 < l.length ∧ l.length ≤ 80) ∧
      ∀ fuel, B.length < fuel →
        Bytes lib pkg fuel = some (Except.ok B) ∧ B.length = pkg.decodedLen := by
  obtain ⟨pkg, h1, h2, -, -, h3, h4, -⟩ := Bytes_main lib hgz BinaryName B
  obtain ⟨lines, l1, l2, l3⟩ :=
    layoutLoop_lines _ (rawStdEncode (lib.gzipCompress B)) (Nat.le_refl _)
  refine ⟨pkg, h1, h2, ⟨lines, ?_, l2, l3⟩, fun fuel hf => ⟨h4 fuel hf, h2.symm⟩⟩
  rw [h3, literalBody, l1]

/-- Witness of C1: the twelve bytes `hello world!` give `decodedLen = 12` and `Bytes`
returns them. -/
theorem hello_world_round_trip :
    GzipRoundTrip storedLib ∧
    main storedLib [] (Except.ok hello) = Except.ok (helloPkg 12) ∧
    (helloPkg 12).decodedLen = 12 ∧
    Bytes storedLib (helloPkg 12) 13 = some (Except.ok hello) := by
  obtain ⟨pkg, h1, -, -, h4⟩ :=
    generated_artifact_round_trip storedLib storedLib_roundTrip [] hello
  have h0 : main storedLib [] (Except.ok hello) = Except.ok (helloPkg 12) := by decide
  have hp : pkg = helloPkg 12 := by
    rw [h0] at h1
    simp only [Except.ok.injEq] at h1
    exact h1.symm
  subst hp
  exact ⟨storedLib_roundTrip, h1, rfl, (h4 13 (by decide)).1⟩

/-- Claim C2 (digest agreement).  For a gzip library that satisfies `GzipRoundTrip` and
every byte sequence `B`, with the package `main` produces for `B` and the byte sequence
`D` that `Bytes` returns for it: `Sha1()` is `sha1.Sum(D)`, `Sha256()` is
`sha256.Sum256(D)`, and the hex encodings of these two sums of `D` are the stored strings
`packerSHA1` and `packerSHA256`. -/
theorem generated_digests_agree (lib : Lib) (hgz : GzipRoundTrip lib)
    (BinaryName B : List Byte) :
    ∃ pkg D, main lib BinaryName (Except.ok B) = Except.ok pkg ∧
      (∀ fuel, B.length < fuel → Bytes lib pkg fuel = some (Except.ok D)) ∧
      (∀ fuel D1, Bytes lib pkg fuel = some (Except.ok D1) → D1 = D) ∧
      Sha1 pkg = Except.ok (lib.sha1Sum D).val ∧
      Sha256 pkg = Except.ok (lib.sha256Sum D).val ∧
      hexEncodeToString (lib.sha1Sum D).val = pkg.packerSHA1 ∧
      hexEncodeToString (lib.sha256Sum D).val = pkg.packerSHA256 := by
  obtain ⟨pkg, h1, -, h2, h3, -, h4, h5⟩ := Bytes_main lib hgz BinaryName B
  refine ⟨pkg, B, h1, h4, h5, ?_, ?_, h2.symm, h3.symm⟩
  · rw [Sha1_of_decode pkg _ (by rw [h2]; exact hexDecodeString_encode _)]
    rw [(take_pad_eq_iff 20 _).2 (lib.sha1Sum B).property]
  · rw [Sha256_of_decode pkg _ (by rw [h3]; exact hexDecodeString_encode _)]
    rw [(take_pad_eq_iff 32 _).2 (lib.sha256Sum B).property]

/-- Witness of C2: the digests stored for `hello world!` are the sums of the bytes that
`Bytes` returns. -/
theorem hello_world_digests :
    GzipRoundTrip storedLib ∧
    Bytes storedLib (helloPkg 12) 13 = some (Except.ok hello) ∧
    Sha1 (helloPkg 12) = Except.ok (storedLib.sha1Sum hello).val ∧
    Sha256 (helloPkg 12) = Except.ok (storedLib.sha256Sum hello).val := by
  obtain ⟨pkg, D, h1, h2, -, h4, h5, -, -⟩ :=
    generated_digests_agree storedLib storedLib_roundTrip [] hello
  have h0 : main storedLib [] (Except.ok hello) = Except.ok (helloPkg 12) := by decide
  have hp : pkg = helloPkg 12 := by
    rw [h0] at h1
    simp only [Except.ok.injEq] at h1
    exact h1.symm
  subst hp
  have hb : Bytes storedLib (helloPkg 12) 13 = some (Except.ok hello) := by decide
  have hD : D = hello := by
    have := h2 13 (by decide)
    rw [hb] at this
    simp only [Option.some.injEq, Except.ok.injEq] at this
    exact this.symm
  subst hD
  exact ⟨storedLib_roundTrip, hb, h4, h5⟩

/-- Claim C3 (length check of `Bytes`).  For a reader that delivers `k` bytes in total
and then `io.EOF`: when `k < decodedLen`, `Bytes` returns `(nil, io.ErrUnexpectedEOF)`, as
soon as its loop may run more than `k` times; and whenever `Bytes` returns a nil error,
the slice it returns has length `decodedLen` and holds exactly the bytes of the stream,
in order. -/
theorem Bytes_length_check (lib : Lib) (pkg : Package) (r : Stream)
    (hr : newReader lib pkg = Except.ok r) (hlast : r.last = Err.EOF) :
    (r.content.length < pkg.decodedLen → ∀ fuel, r.content.length < fuel →
      Bytes lib pkg fuel = some (Except.error Err.ErrUnexpectedEOF)) ∧
    (∀ fuel p, Bytes lib pkg fuel = some (Except.ok p) →
      p.length = pkg.decodedLen ∧ p = r.content) := by
  constructor
  · intro hlen fuel hf
    exact Bytes_short lib pkg r hr hlast hlen fuel hf
  · intro fuel p hp
    obtain ⟨-, h2, h3⟩ := Bytes_ok_inv lib pkg r hr fuel p hp
    exact ⟨by rw [h2, h3], h2⟩

/-- Witness of C3: a stream of 12 bytes under `decodedLen = 20`. -/
theorem short_stream_unexpected_eof :
    Bytes storedLib (helloPkg 20) 13 = some (Except.error Err.ErrUnexpectedEOF) :=
  (Bytes_length_check storedLib (helloPkg 20) helloStream (by rfl) rfl).1
    (by decide) 13 (by decide)

/-- Claim C4 (no clobber).  When `name` exists, `WriteFile(name)` returns a non-nil error
and the file system afterwards is the one before (so the file at `name` keeps its content
and permission bits and is not removed), whatever the bound on the copy. -/
theorem WriteFile_no_clobber (lib : Lib) (pkg : Package) (env : FileEnv) (fs : FS)
    (name : String) (f : File) (h : fs.lookup name = some f) (fuel : Nat) :
    ∃ e, WriteFile lib pkg env fs name fuel = some (some e, fs) := by
  unfold WriteFile
  cases newReader lib pkg with
  | error e => exact ⟨e, rfl⟩
  | ok r =>
    simp only [openFile, h]
    exact ⟨Err.ErrExist, rfl⟩

/-- Witness of C4: an existing file of two bytes with mode 0600. -/
theorem existing_file_untouched :
    ∃ e, WriteFile storedLib (helloPkg 12) plainEnv
        [("packer", { content := [1, 2], perm := 0o600 })] "packer" 0
      = some (some e, [("packer", { content := [1, 2], perm := 0o600 })]) :=
  WriteFile_no_clobber storedLib (helloPkg 12) plainEnv _ "packer"
    { content := [1, 2], perm := 0o600 } (by decide) 0

/-- Counterexample to C5 as stated: `packer` does not exist, the destination fails after
five of the twelve bytes, and the removal of the file is refused.  `WriteFile` returns
the write error, having discarded the error of `os.Remove`, and the file with the five
bytes written so far exists afterwards. -/
theorem refused_removal_leaves_file :
    List.lookup "packer" ([] : FS) = none ∧
    ioCopy stuckEnv "packer" 1 helloStream
        [("packer", { content := [], perm := 0o755 })] 0
      = some (some (Err.other 28), [("packer", { content := hello.take 5, perm := 0o755 })]) ∧
    WriteFile storedLib (helloPkg 12) stuckEnv [] "packer" 1
      = some (some (Err.other 28), [("packer", { content := hello.take 5, perm := 0o755 })]) ∧
    List.lookup "packer" [("packer", ({ content := hello.take 5, perm := 0o755 } : File))]
      = some { content := hello.take 5, perm := 0o755 } := by
  refine ⟨rfl, by decide, by decide, by decide⟩

/-- Claim C5, amended (cleanup on failure).  When `name` does not exist, the reader and
the destination can be opened, and the copy ends with the error `e` (a read error of the
stream or a write error of the destination, after any number of bytes), `WriteFile`
returns `e`; and when the call `os.Remove(name)` it then makes is not refused, `name`
does not exist afterwards: the file system is the one before. -/
theorem WriteFile_cleanup_on_copy_error (lib : Lib) (pkg : Package) (env : FileEnv)
    (fs : FS) (name : String) (fuel : Nat) (r : Stream) (fs0 fs1 : FS) (e : Err)
    (hname : fs.lookup name = none)
    (hr : newReader lib pkg = Except.ok r)
    (ho : openFile env fs name 0o755 = Except.ok fs0)
    (hc : ioCopy env name fuel r fs0 0 = some (some e, fs1)) :
    ∃ fs2, WriteFile lib pkg env fs name fuel = some (some e, fs2) ∧
      (env.removeErr name = none → fs2.lookup name = none ∧ fs2 = fs) := by
  refine ⟨(remove env fs1 name).2, ?_, ?_⟩
  · unfold WriteFile
    rw [hr]
    simp only
    rw [ho]
    simp only
    rw [hc]
  · intro hrm
    obtain ⟨b, hb, -⟩ := ioCopy_spec env name fuel r fs0 0 _ _ hc
    obtain ⟨-, h0⟩ := openFile_ok env fs name _ fs0 ho
    have hfs : (remove env fs1 name).2 = fs := by
      rw [remove_snd env fs1 name hrm, hb, unlink_appendFile, h0, unlink_cons, if_pos rfl,
        unlink_of_lookup_none fs name hname]
    rw [hfs]
    exact ⟨hname, rfl⟩

/-- Witness of C5, amended: the destination fails after five of the twelve bytes and the
removal is not refused. -/
theorem disk_full_leaves_no_file :
    ∃ fs2, WriteFile storedLib (helloPkg 12) fullEnv
        [("other", { content := [], perm := 0o644 })] "packer" 1
        = some (some (Err.other 28), fs2) ∧
      fs2.lookup "packer" = none ∧
      fs2 = [("other", { content := [], perm := 0o644 })] := by
  obtain ⟨fs2, h1, h2⟩ :=
    WriteFile_cleanup_on_copy_error storedLib (helloPkg 12) fullEnv
      [("other", { content := [], perm := 0o644 })] "packer" 1 helloStream
      [("packer", { content := [], perm := 0o755 }),
        ("other", { content := [], perm := 0o644 })]
      [("packer", { content := hello.take 5, perm := 0o755 }),
        ("other", { content := [], perm := 0o644 })]
      (Err.other 28) (by decide) (by rfl) (by decide) (by decide)
  exact ⟨fs2, h1, h2 rfl⟩

/-- Counterexample to C6 as stated, in its two halves.  For the package of
`hello world!` with `decodedLen = 20`, `WriteFile` returns nil and leaves the twelve
bytes in the file, while `Bytes` returns `(nil, io.ErrUnexpectedEOF)` and, whatever the
bound on its loop, never returns those bytes.  And under the umask 0177 `WriteFile`
returns nil for the generated package and the file has the permission bits 0600, without
owner-execute. -/
theorem short_artifact_written_not_returned :
    WriteFile storedLib (helloPkg 20) plainEnv [] "packer" 2
      = some (none, [("packer", { content := hello, perm := 0o755 })]) ∧
    Bytes storedLib (helloPkg 20) 2 = some (Except.error Err.ErrUnexpectedEOF) ∧
    (∀ fuel, Bytes storedLib (helloPkg 20) fuel ≠ some (Except.ok hello)) ∧
    WriteFile storedLib (helloPkg 12) maskedEnv [] "packer" 2
      = some (none, [("packer", { content := hello, perm := 0o600 })]) ∧
    0o600 &&& 0o100 = 0 := by
  refine ⟨by decide, by decide, ?_, by decide, by decide⟩
  intro fuel h
  have := (Bytes_ok_inv storedLib (helloPkg 20) helloStream (by rfl) fuel _ h).2.2
  revert this
  decide

/-- Claim C6, amended (materialization fidelity).  If `WriteFile(name)` returns nil, the
reader was opened on a stream that ends with `io.EOF` and the file at `name` holds
exactly the bytes of that stream; whenever `Bytes` returns a nil error its slice is that
content, and it does so when the stream holds exactly `decodedLen` bytes.  The file was
created with the requested mode 0755: when the umask clears none of these bits the file
has the permission bits 0755, and when the umask does not clear owner-execute (0100)
the bits of the file include it. -/
theorem WriteFile_fidelity (lib : Lib) (pkg : Package) (env : FileEnv) (fs : FS)
    (name : String) (fuel : Nat) (fs1 : FS)
    (h : WriteFile lib pkg env fs name fuel = some (none, fs1)) :
    ∃ r f, newReader lib pkg = Except.ok r ∧ r.last = Err.EOF ∧
      fs1.lookup name = some f ∧ f.content = r.content ∧
      (env.umask &&& 0o755 = 0 → f.perm = 0o755) ∧
      (env.umask &&& 0o100 = 0 → f.perm &&& 0o100 = 0o100) ∧
      (∀ k D, Bytes lib pkg k = some (Except.ok D) → D = r.content) ∧
      (r.content.length = pkg.decodedLen → ∀ k, r.content.length < k →
        Bytes lib pkg k = some (Except.ok r.content)) := by
  unfold WriteFile at h
  cases hr : newReader lib pkg with
  | error e => rw [hr] at h; simp at h
  | ok r =>
    rw [hr] at h
    simp only at h
    cases ho : openFile env fs name 0o755 with
    | error e => rw [ho] at h; simp at h
    | ok fs0 =>
      rw [ho] at h
      simp only at h
      obtain ⟨-, h0⟩ := openFile_ok env fs name _ fs0 ho
      cases hc : ioCopy env name fuel r fs0 0 with
      | none => rw [hc] at h; simp at h
      | some res =>
        rw [hc] at h
        match res, hc, h with
        | (some e, fs2), hc, h => simp at h
        | (none, fs2), hc, h =>
          simp only [Option.some.injEq, Prod.mk.injEq] at h
          obtain ⟨b, hb1, hb2⟩ := ioCopy_spec env name fuel r fs0 0 _ _ hc
          obtain ⟨hb3, hlast⟩ := hb2 rfl
          refine ⟨r, { content := r.content, perm := applyUmask 0o755 env.umask }, rfl,
            hlast, ?_, rfl, ?_, ?_, ?_, ?_⟩
          · rw [← h.2, hb1, h0, lookup_appendFile_cons, hb3]
            simp
          · intro hu
            exact applyUmask_unmasked env.umask hu
          · intro hu
            exact applyUmask_owner_execute env.umask hu
          · intro k D hD
            exact (Bytes_ok_inv lib pkg r hr k D hD).2.1
          · intro hlen k hk
            exact Bytes_exact lib pkg r hr hlast hlen k hk

/-- Witness of C6, amended: the generated package of `hello world!` written to an empty
file system under the umask 022. -/
theorem hello_world_written :
    WriteFile storedLib (helloPkg 12) plainEnv [] "packer" 2
      = some (none, [("packer", { content := hello, perm := 0o755 })]) ∧
    ∃ r f, newReader storedLib (helloPkg 12) = Except.ok r ∧ r.last = Err.EOF ∧
      List.lookup "packer" [("packer", ({ content := hello, perm := 0o755 } : File))]
         = some f ∧ f.content = r.content ∧
      (plainEnv.umask &&& 0o755 = 0 → f.perm = 0o755) ∧
      (plainEnv.umask &&& 0o100 = 0 → f.perm &&& 0o100 = 0o100) ∧
      (∀ k D, Bytes storedLib (helloPkg 12) k = some (Except.ok D) → D = r.content) ∧
      (r.content.length = (helloPkg 12).decodedLen → ∀ k, r.content.length < k →
        Bytes storedLib (helloPkg 12) k = some (Except.ok r.content)) :=
  ⟨by decide, WriteFile_fidelity storedLib (helloPkg 12) plainEnv [] "packer" 2 _ (by decide)⟩

/-- Claim C7 (payload alphabet).  Every character of the payload that `EncodeBinary`
writes is a letter, a digit, `+` or `/`, hence neither the padding character `=` (61) nor
a backtick (96); and the text that `main` puts between the backticks of the literal, the
payload with the line feeds inserted, holds no backtick either. -/
theorem payload_alphabet (lib : Lib) (file : Except Err (List Byte)) (g : Globals)
    (buf : List Byte) (h : EncodeBinary lib file = Except.ok (g, buf)) :
    (∀ c ∈ buf, StdAlphabet c ∧ c.val ≠ 61 ∧ c.val ≠ 96) ∧
    (∀ c ∈ literalBody buf, (StdAlphabet c ∨ c.val = 10) ∧ c.val ≠ 96) := by
  have hbuf : ∀ c ∈ buf, StdAlphabet c := by
    unfold EncodeBinary at h
    cases file with
    | error e => simp at h
    | ok b =>
      simp only [Except.ok.injEq, Prod.mk.injEq] at h
      rw [← h.2]
      exact rawStdEncode_alphabet _
  constructor
  · intro c hc
    have := hbuf c hc
    unfold StdAlphabet at this
    refine ⟨hbuf c hc, ?_, ?_⟩ <;> omega
  · intro c hc
    unfold literalBody at hc
    simp only [List.mem_cons] at hc
    have hc1 : c ∈ buf ∨ c = 10 := by
      rcases hc with h1 | h1
      · exact Or.inr h1
      · exact mem_layoutLoop _ _ _ h1
    rcases hc1 with h1 | h1
    · have := hbuf c h1
      unfold StdAlphabet at this
      exact ⟨Or.inl (hbuf c h1), by omega⟩
    · subst h1
      exact ⟨Or.inr rfl, by decide⟩

/-- Witness of C7: the payload written for `hello world!`. -/
theorem hello_world_payload_chars :
    EncodeBinary storedLib (Except.ok hello)
      = Except.ok ({ DecodedLen := 12, Sha256Sum := storedLib.sha256Sum hello,
                     Sha1Sum := storedLib.sha1Sum hello },
                   bytesOf "H4toZWxsbyB3b3JsZCE") ∧
    (∀ c ∈ bytesOf "H4toZWxsbyB3b3JsZCE", StdAlphabet c ∧ c.val ≠ 61 ∧ c.val ≠ 96) :=
  ⟨by rfl,
   (payload_alphabet storedLib (Except.ok hello)
      { DecodedLen := 12, Sha256Sum := storedLib.sha256Sum hello,
        Sha1Sum := storedLib.sha1Sum hello }
      (bytesOf "H4toZWxsbyB3b3JsZCE") (by rfl)).1⟩

/-- Claim C8 (malformed stored hex).  `Sha1()` panics exactly when `packerSHA1` is
malformed hex (a byte outside 0-9a-fA-F, or an odd number of characters), `Sha256()`
exactly when `packerSHA256` is; and for a stored string that is the hex encoding of a
20-byte (32-byte) digest they return exactly those bytes. -/
theorem Sha_malformed_panics (pkg : Package) :
    ((∃ e, Sha1 pkg = Except.error e) ↔ MalformedHex pkg.packerSHA1) ∧
    ((∃ e, Sha256 pkg = Except.error e) ↔ MalformedHex pkg.packerSHA256) ∧
    (∀ d : Digest sha1Size,
      Sha1 { pkg with packerSHA1 := hexEncodeToString d.val } = Except.ok d.val) ∧
    (∀ d : Digest sha256Size,
      Sha256 { pkg with packerSHA256 := hexEncodeToString d.val } = Except.ok d.val) := by
  refine ⟨Sha1_error_iff pkg, Sha256_error_iff pkg, ?_, ?_⟩
  · intro d
    rw [Sha1_of_decode _ d.val (hexDecodeString_encode d.val)]
    have := (take_pad_eq_iff 20 d.val).2 d.property
    rw [this]
  · intro d
    rw [Sha256_of_decode _ d.val (hexDecodeString_encode d.val)]
    have := (take_pad_eq_iff 32 d.val).2 d.property
    rw [this]

/-- Witness of C8: a stored SHA-1 string with the byte `g`, and a stored SHA-256 string
of three characters. -/
theorem bad_digit_panics :
    (∃ e, Sha1 (digestPkg (bytesOf "0g") (bytesOf "abc")) = Except.error e) ∧
    (∃ e, Sha256 (digestPkg (bytesOf "0g") (bytesOf "abc")) = Except.error e) :=
  ⟨(Sha_malformed_panics (digestPkg (bytesOf "0g") (bytesOf "abc"))).1.2 (by decide),
   (Sha_malformed_panics (digestPkg (bytesOf "0g") (bytesOf "abc"))).2.1.2 (by decide)⟩

/-- Claim C9 at its failing input: for the package of `hello world!` with
`decodedLen = 11` the reader opens and holds twelve bytes, and `Bytes` has not returned
after any number of iterations of its loop.  (By `Bytes_returns` and `Bytes_overlong`
the loop ends exactly when the stream holds at most `decodedLen` bytes.) -/
theorem overlong_stream_never_returns :
    newReader storedLib (helloPkg 11) = Except.ok helloStream ∧
    helloStream.content.length = 12 ∧ (helloPkg 11).decodedLen = 11 ∧
    ∀ fuel, Bytes storedLib (helloPkg 11) fuel = none :=
  ⟨by rfl, by decide, rfl,
   fun fuel => Bytes_overlong storedLib (helloPkg 11) helloStream (by rfl) (by decide) fuel⟩

/-- Claim C10 (stored digest of the wrong length).  For a well-formed hex string `s`,
which decodes to `k = len(s)/2` bytes `d`: stored as `packerSHA1` it makes `Sha1()`
return, without a panic, the 20 bytes that are the first `min k 20` bytes of `d` followed
by zero bytes, and stored as `packerSHA256` it makes `Sha256()` return the like 32 bytes;
the result is `d` itself only when `s` has exactly 40, respectively 64, characters. -/
theorem Sha_wrong_length_accepted (pkg : Package) (s : List Byte) (hs : ¬ MalformedHex s) :
    ∃ d, hexDecodeString s = (d, none) ∧ d.length = s.length / 2 ∧
      Sha1 { pkg with packerSHA1 := s }
        = Except.ok (d.take 20 ++ List.replicate (20 - d.length) 0) ∧
      Sha256 { pkg with packerSHA256 := s }
        = Except.ok (d.take 32 ++ List.replicate (32 - d.length) 0) ∧
      (d.take 20 ++ List.replicate (20 - d.length) 0).length = 20 ∧
      (d.take 32 ++ List.replicate (32 - d.length) 0).length = 32 ∧
      (Sha1 { pkg with packerSHA1 := s } = Except.ok d ↔ s.length = 40) ∧
      (Sha256 { pkg with packerSHA256 := s } = Except.ok d ↔ s.length = 64) := by
  have herr := (hexDecodeString_err s).2 hs
  have hlen := hexDecodeString_length s herr
  have hodd : s.length % 2 = 0 := by
    have : ¬ s.length % 2 = 1 := fun h => hs (Or.inr h)
    omega
  have hd : hexDecodeString s = ((hexDecodeString s).1, none) := by
    rw [← herr]
  refine ⟨(hexDecodeString s).1, hd, hlen, ?_, ?_, ?_, ?_, ?_, ?_⟩
  · exact Sha1_of_decode _ _ hd
  · exact Sha256_of_decode _ _ hd
  · simp; omega
  · simp; omega
  · rw [Sha1_of_decode _ _ hd]
    simp only [Except.ok.injEq, take_pad_eq_iff]
    omega
  · rw [Sha256_of_decode _ _ hd]
    simp only [Except.ok.injEq, take_pad_eq_iff]
    omega

/-- Witness of C10: the four characters `0aBC` decode to two bytes, and `Sha1()` returns
them followed by eighteen zero bytes. -/
theorem two_byte_digest_zero_filled :
    ¬ MalformedHex (bytesOf "0aBC") ∧
    Sha1 (digestPkg (bytesOf "0aBC") []) = Except.ok (10 :: 188 :: List.replicate 18 0) := by
  refine ⟨by decide, ?_⟩
  obtain ⟨d, h1, -, h3, -⟩ :=
    Sha_wrong_length_accepted (digestPkg [] []) (bytesOf "0aBC") (by decide)
  have hd : d = [10, 188] := by
    have h0 : hexDecodeString (bytesOf "0aBC") = ([10, 188], none) := by decide
    rw [h0] at h1
    simp only [Prod.mk.injEq, and_true] at h1
    exact h1.symm
  subst hd
  exact h3

end Packerbin
